import Mathlib

/-!
Verification of the BlockSim mini-blockchain core (mini_blockchain.py and
the chain-management parts of blockchain_explorer.py).

The SHA-256 digest over the JSON canonical encoding of the five block
fields (index, timestamp, data, previous_hash, nonce) is abstracted as a
function parameter H of those five fields; hex digests are strings.
Timestamps (Python floats from time.time) are modelled as opaque Nat
values threaded explicitly to each block-creating operation. Python float
amounts in balance parsing are modelled as exact rationals; the unbounded
proof-of-work while loop is modelled with explicit fuel, returning none
when the fuel runs out before a qualifying nonce is found.
-/

/-- Type of the abstracted digest function: arguments are
index, timestamp, data, previous_hash, nonce. -/
abbrev HashFn := Nat → Nat → String → String → Nat → String

/-- A block, with the six fields of the Python Block class. -/
structure Block where
  index : Nat
  timestamp : Nat
  data : String
  previous_hash : String
  nonce : Nat
  hash : String
deriving DecidableEq, Repr

/-- Block.calculate_hash: the digest is a pure function of the five
canonical fields (the stored hash field is not an input). -/
def calculate_hash (H : HashFn) (b : Block) : String :=
  H b.index b.timestamp b.data b.previous_hash b.nonce

/-- Block.__init__: nonce starts at 0 and the stored hash is computed
from the initial field values. -/
def newBlock (H : HashFn) (index : Nat) (data previous_hash : String)
    (timestamp : Nat) : Block :=
  let b : Block :=
    { index := index, timestamp := timestamp, data := data,
      previous_hash := previous_hash, nonce := 0, hash := "" }
  { b with hash := calculate_hash H b }

/-- The mining target: a string of difficulty-many zero characters. -/
def zeroTarget (difficulty : Nat) : String :=
  String.mk (List.replicate difficulty '0')

/-- Block.mine_block: while hash[:difficulty] != target, increment the
nonce and recompute the hash. The Python loop is unbounded; fuel bounds
the number of loop iterations here and none models non-termination
within that bound. -/
def mineFuel (H : HashFn) (difficulty : Nat) : Nat → Block → Option Block
  | fuel, b =>
    if (b.hash.take difficulty) = zeroTarget difficulty then some b
    else
      match fuel with
      | 0 => none
      | fuel + 1 =>
        let b1 : Block := { b with nonce := b.nonce + 1 }
        mineFuel H difficulty fuel { b1 with hash := calculate_hash H b1 }

/-- The chain state of the Python Blockchain class. -/
structure Blockchain where
  chain : List Block
  difficulty : Nat
  pending_transactions : List String
  mining_reward : Nat
deriving DecidableEq, Repr

/-- The loop body of Blockchain.is_chain_valid, walking adjacent pairs:
the first argument is block i-1, the list holds blocks i, i+1, ....
Each block must store a hash equal to a fresh recomputation, and must
link to its predecessor's stored hash. -/
def chainValidFrom (H : HashFn) : Block → List Block → Bool
  | _, [] => true
  | prev, b :: rest =>
    (b.hash = calculate_hash H b) && (b.previous_hash = prev.hash)
      && chainValidFrom H b rest

/-- Blockchain.is_chain_valid: checks run for i in range(1, len(chain));
the genesis block itself is never examined beyond its stored hash. -/
def is_chain_valid (H : HashFn) (c : Blockchain) : Bool :=
  match c.chain with
  | [] => true
  | g :: rest => chainValidFrom H g rest

/-- Blockchain.create_genesis_block: Block(0, genesis text, "0"), mined
at the chain's difficulty. -/
def create_genesis_block (H : HashFn) (fuel difficulty timestamp : Nat) :
    Option Block :=
  mineFuel H difficulty fuel
    (newBlock H 0 "Genesis Block - The beginning of BlockSim" "0" timestamp)

/-- Blockchain.__init__: difficulty as given (no range check here — the
range check lives in the explorer's create_blockchain), empty pending
list, mining_reward = 100, chain seeded with the mined genesis block. -/
def Blockchain.init (H : HashFn) (fuel difficulty timestamp : Nat) :
    Option Blockchain :=
  (create_genesis_block H fuel difficulty timestamp).map fun g =>
    { chain := [g], difficulty := difficulty,
      pending_transactions := [], mining_reward := 100 }

/-- Blockchain.get_latest_block: chain[-1]. -/
def get_latest_block (c : Blockchain) : Option Block :=
  c.chain.getLast?

/-- Blockchain.add_transaction: append to the pending list. -/
def add_transaction (c : Blockchain) (t : String) : Blockchain :=
  { c with pending_transactions := c.pending_transactions ++ [t] }

/-- Blockchain.add_block_direct: build a block at index len(chain)
linking to the latest block's stored hash, mine it, append it. -/
def add_block_direct (H : HashFn) (fuel : Nat) (c : Blockchain)
    (data : String) (timestamp : Nat) : Option Blockchain := do
  let last ← get_latest_block c
  let nb ← mineFuel H c.difficulty fuel
    (newBlock H c.chain.length data last.hash timestamp)
  pure { c with chain := c.chain ++ [nb] }

/-- Blockchain.mine_pending_transactions: no-op when nothing is pending;
otherwise join pending entries plus a reward entry with " | ", build a
block at index len(chain) linking to the latest block, mine it, append
it and clear the pending list. -/
def mine_pending_transactions (H : HashFn) (fuel : Nat) (c : Blockchain)
    (mining_reward_address : String) (timestamp : Nat) : Option Blockchain :=
  if c.pending_transactions.isEmpty then some c
  else do
    let reward_transaction :=
      "Mining Reward: " ++ toString c.mining_reward ++ " coins to "
        ++ mining_reward_address
    let transactions := c.pending_transactions ++ [reward_transaction]
    let transaction_data := " | ".intercalate transactions
    let last ← get_latest_block c
    let nb ← mineFuel H c.difficulty fuel
      (newBlock H c.chain.length transaction_data last.hash timestamp)
    pure { c with chain := c.chain ++ [nb], pending_transactions := [] }

/-- Error outcome of Blockchain.tamper_with_block: the out-of-range
branch reports failure and mutates nothing. -/
inductive TamperError | outOfRange
deriving DecidableEq, Repr

/-- Blockchain.tamper_with_block: when 0 <= block_index < len(chain),
overwrite that block's data field in place (the stored hash is left
stale on purpose); otherwise report an out-of-range failure without
touching the chain. -/
def tamper_with_block (c : Blockchain) (block_index : Int) (new_data : String) :
    Except TamperError Blockchain :=
  if h : 0 ≤ block_index ∧ block_index < (c.chain.length : Int) then
    have hj : block_index.toNat < c.chain.length := by omega
    let b := c.chain.get ⟨block_index.toNat, hj⟩
    Except.ok
      { c with chain := c.chain.set block_index.toNat { b with data := new_data } }
  else Except.error TamperError.outOfRange

/-- Error outcome of BlockchainExplorer.create_blockchain. -/
inductive CreateError | invalidDifficulty
deriving DecidableEq, Repr

/-- BlockchainExplorer.create_blockchain: reject a difficulty outside
1..6, otherwise construct Blockchain(difficulty) (whose genesis mining
is fuel-bounded here, hence the inner Option). -/
def create_blockchain (H : HashFn) (fuel : Nat) (difficulty : Int)
    (timestamp : Nat) : Except CreateError (Option Blockchain) :=
  if difficulty < 1 ∨ 6 < difficulty then Except.error CreateError.invalidDifficulty
  else Except.ok (Blockchain.init H fuel difficulty.toNat timestamp)

/-- The per-block record of the exported JSON document. -/
structure BlockRecord where
  index : Nat
  timestamp : Nat
  data : String
  previous_hash : String
  hash : String
  nonce : Nat
deriving DecidableEq, Repr

/-- Block.to_dict: the six serialized fields, taken verbatim from the
block (the stored hash and nonce, not recomputed ones). -/
def Block.to_dict (b : Block) : BlockRecord :=
  { index := b.index, timestamp := b.timestamp, data := b.data,
    previous_hash := b.previous_hash, hash := b.hash, nonce := b.nonce }

/-- Blockchain.export_chain: the ordered list of per-block records
(the JSON file layer itself is field-preserving and elided). -/
def export_chain (c : Blockchain) : List BlockRecord :=
  c.chain.map Block.to_dict

/-- One step of BlockchainExplorer.load_blockchain: Block(...) is
constructed from the record's index, data, previous_hash and timestamp,
then its hash and nonce fields are overwritten from the record. -/
def record_to_block (H : HashFn) (r : BlockRecord) : Block :=
  let b := newBlock H r.index r.data r.previous_hash r.timestamp
  { b with hash := r.hash, nonce := r.nonce }

/-- BlockchainExplorer.load_blockchain: build Blockchain(difficulty=2)
(mining a throwaway genesis, fuel-bounded here), clear its chain, and
refill it from the records. -/
def load_blockchain (H : HashFn) (fuel timestamp : Nat)
    (records : List BlockRecord) : Option Blockchain :=
  (Blockchain.init H fuel 2 timestamp).map fun bc =>
    { bc with chain := records.map (record_to_block H) }

/-- Python substring membership, sub in t. -/
def containsSub (t sub : String) : Bool :=
  decide (sub.data <:+: t.data)

/-- Python str.split() with no separator: split on whitespace runs and
drop empty pieces. -/
def pySplit (s : String) : List String :=
  (s.split Char.isWhitespace).filter (fun t => !t.isEmpty)

/-- Numeric value of a list of decimal digit characters. -/
def digitsVal (l : List Char) : Nat :=
  l.foldl (fun acc c => acc * 10 + (c.toNat - 48)) 0

/-- Model of Python float() on the decimal literals this program
produces and parses: an optional sign, digits, an optional single
decimal point. Any other string is none, modelling the ValueError
raise. Values are exact rationals; every amount reached in this
development is small enough that binary64 arithmetic is exact on it. -/
def parseFloat (s : String) : Option ℚ :=
  let signAndBody : ℚ × List Char :=
    match s.data with
    | '-' :: r => (-1, r)
    | '+' :: r => (1, r)
    | r => (1, r)
  let sign := signAndBody.1
  let body := signAndBody.2
  let ip := body.takeWhile (fun c => c ≠ '.')
  let rest := body.dropWhile (fun c => c ≠ '.')
  match rest with
  | [] =>
    if !ip.isEmpty && ip.all Char.isDigit then some (sign * digitsVal ip)
    else none
  | '.' :: fp =>
    if (!ip.isEmpty || !fp.isEmpty) && ip.all Char.isDigit && fp.all Char.isDigit then
      some (sign * ((digitsVal ip : ℚ) + (digitsVal fp : ℚ) / (10 : ℚ) ^ fp.length))
    else none
  | _ :: _ => none

/-- The per-entry body of Blockchain.get_balance: classify one
transaction string by substring guards and apply its balance effect.
Transfer branch: needs "sends" and "to" as substrings; with at least 5
whitespace tokens it reads token 0 as sender, parses token 2 as the
amount and reads token 5 as recipient — token 5 of a 5-token entry is
an IndexError, modelled as none, and a non-numeric amount is a
ValueError, also none. Reward branch: needs "Mining Reward:" and the
queried address as substrings; with at least 3 tokens it credits the
parsed token 2. Anything else leaves the balance unchanged. -/
def applyTransaction (address : String) (balance : ℚ) (t : String) : Option ℚ :=
  if containsSub t "sends" && containsSub t "to" then
    let parts := pySplit t
    if 5 ≤ parts.length then do
      let sender ← parts[0]?
      let amountStr ← parts[2]?
      let amount ← parseFloat amountStr
      let recipient ← parts[5]?
      let afterSend := if sender = address then balance - amount else balance
      pure (if recipient = address then afterSend + amount else afterSend)
    else pure balance
  else if containsSub t "Mining Reward:" && containsSub t address then
    let parts := pySplit t
    if 3 ≤ parts.length then do
      let amountStr ← parts[2]?
      let amount ← parseFloat amountStr
      pure (balance + amount)
    else pure balance
  else pure balance

/-- Blockchain.get_balance: start at 0, skip blocks whose index field
is 0, split each remaining block's data on " | " and apply every entry
in order; none models an uncaught exception during parsing. -/
def get_balance (c : Blockchain) (address : String) : Option ℚ :=
  c.chain.foldlM
    (fun balance block =>
      if block.index = 0 then pure balance
      else (block.data.splitOn " | ").foldlM (applyTransaction address) balance)
    0

/-- Driver iterating Blockchain.add_block_direct over a list of
payload/timestamp pairs, for the all-appends-keep-validity property. -/
def addBlocksDirect (H : HashFn) (fuel : Nat) :
    Blockchain → List (String × Nat) → Option Blockchain
  | c, [] => some c
  | c, (d, ts) :: rest =>
    match add_block_direct H fuel c d ts with
    | none => none
    | some c1 => addBlocksDirect H fuel c1 rest

/-- A concrete stand-in digest function for witnesses: a tagged join of
the five fields, prefixed with one zero character so that difficulty-1
mining always succeeds at nonce 0. -/
def H0 : HashFn := fun index timestamp data previous_hash nonce =>
  "0" ++ toString index ++ "|" ++ toString timestamp ++ "|" ++ data ++ "|"
    ++ previous_hash ++ "|" ++ toString nonce

/-- A concrete mined genesis block over H0. -/
def g0 : Block := newBlock H0 0 "Genesis Block - The beginning of BlockSim" "0" 0

/-- A concrete second block over H0, linked to g0. -/
def b1 : Block := newBlock H0 1 "hello" g0.hash 1

/-- A concrete valid two-block chain over H0. -/
def demoChain : Blockchain :=
  { chain := [g0, b1], difficulty := 1,
    pending_transactions := [], mining_reward := 100 }

/-- The genesis block with its stored hash kept but its index and
previous_hash fields corrupted, for the genesis-check counterexample. -/
def g0bad : Block := { g0 with index := 9, previous_hash := "not-the-sentinel" }

/-- demoChain with the corrupted genesis in place. -/
def demoChainBadGenesis : Blockchain := { demoChain with chain := [g0bad, b1] }

/-- demoChain after tampering block 1's data to "X". -/
def demoTampered : Blockchain := { demoChain with chain := [g0, { b1 with data := "X" }] }

/-- A concrete freshly constructed block over H0 for the mining witness. -/
def mb : Block := newBlock H0 3 "payload" "prevhash" 5

/-- The one-genesis chain at difficulty 1 for the balance scenario. -/
def c4start : Blockchain := Blockchain.mk [g0] 1 [] 100

/-- The block mined by flushing the scenario's single pending entry. -/
def nb4 : Block :=
  newBlock H0 1 "A sends 10 coins to B | Mining Reward: 100 coins to Miner" g0.hash 1

/-- The scenario chain after the flush: genesis plus the mined block. -/
def c4end : Blockchain := Blockchain.mk [g0, nb4] 1 [] 100

/-- A chain whose block 1 holds the five-token transfer entry that
makes balance derivation raise an IndexError. -/
def crashChain : Blockchain :=
  Blockchain.mk [g0, newBlock H0 1 "A sends 10 to B" g0.hash 1] 1 [] 100

/-- Soundness and minimality of the fuel-bounded mining loop: a
successful run preserves the four payload fields, keeps the stored hash
equal to a fresh recomputation, reaches a digest with the required
all-zero prefix, and skips exactly the nonces below the found one, all
of which fail the difficulty predicate. -/
theorem mineFuel_spec (H : HashFn) (d : Nat) :
    ∀ (fuel : Nat) (b b' : Block),
      b.hash = calculate_hash H b →
      mineFuel H d fuel b = some b' →
      b'.index = b.index ∧ b'.timestamp = b.timestamp ∧ b'.data = b.data ∧
      b'.previous_hash = b.previous_hash ∧ b.nonce ≤ b'.nonce ∧
      b'.hash = calculate_hash H b' ∧ b'.hash.take d = zeroTarget d ∧
      ∀ m, b.nonce ≤ m → m < b'.nonce →
        (H b.index b.timestamp b.data b.previous_hash m).take d ≠ zeroTarget d := by
  intro fuel
  induction fuel with
  | zero =>
    intro b b' hh hm
    rw [mineFuel] at hm
    by_cases hp : b.hash.take d = zeroTarget d
    · rw [if_pos hp] at hm
      cases hm
      exact ⟨rfl, rfl, rfl, rfl, le_refl _, hh, hp,
        fun m h1 h2 => absurd (lt_of_le_of_lt h1 h2) (lt_irrefl _)⟩
    · rw [if_neg hp] at hm
      exact absurd hm (by simp)
  | succ f ih =>
    intro b b' hh hm
    rw [mineFuel] at hm
    by_cases hp : b.hash.take d = zeroTarget d
    · rw [if_pos hp] at hm
      cases hm
      exact ⟨rfl, rfl, rfl, rfl, le_refl _, hh, hp,
        fun m h1 h2 => absurd (lt_of_le_of_lt h1 h2) (lt_irrefl _)⟩
    · rw [if_neg hp] at hm
      obtain ⟨e1, e2, e3, e4, e5, e6, e7, e8⟩ := ih _ b' rfl hm
      refine ⟨e1, e2, e3, e4, ?_, e6, e7, ?_⟩
      · exact le_trans (Nat.le_succ _) e5
      · intro m hm1 hm2
        rcases Nat.eq_or_lt_of_le hm1 with heq | hlt
        · subst heq
          intro hcon
          exact hp (by rw [hh]; exact hcon)
        · exact e8 m hlt hm2

/-- The last element of a nonempty list, as used by get_latest_block on
a chain with an explicit head. -/
theorem getLast?_cons_getLastD {α : Type} (g : α) (rest : List α) :
    (g :: rest).getLast? = some (rest.getLastD g) := by
  induction rest generalizing g with
  | nil => rfl
  | cons x xs ih => rw [List.getLastD_cons]; exact ih x

/-- Appending one block to the validation walk: the extended walk
passes exactly when the old one does and the new block both stores a
recomputable hash and links to the hash of the previous tip. -/
theorem chainValidFrom_append (H : HashFn) (p : Block) (l : List Block) (b : Block) :
    chainValidFrom H p (l ++ [b]) =
      (chainValidFrom H p l &&
        (decide (b.hash = calculate_hash H b)
          && decide (b.previous_hash = (l.getLastD p).hash))) := by
  induction l generalizing p with
  | nil => simp [chainValidFrom]
  | cons x xs ih =>
    rw [List.cons_append]
    show (decide _ && decide _ && chainValidFrom H x (xs ++ [b])) = _
    rw [ih x, List.getLastD_cons]
    simp [chainValidFrom, Bool.and_assoc]

/-- A passing validation walk certifies every walked block's stored
hash against a fresh recomputation. -/
theorem chainValidFrom_hash_ok (H : HashFn) :
    ∀ (l : List Block) (p : Block), chainValidFrom H p l = true →
      ∀ j (hj : j < l.length),
        (l.get ⟨j, hj⟩).hash = calculate_hash H (l.get ⟨j, hj⟩) := by
  intro l
  induction l with
  | nil => intro p _ j hj; exact absurd hj (by simp)
  | cons x xs ih =>
    intro p hv j hj
    rw [chainValidFrom, Bool.and_assoc, Bool.and_eq_true] at hv
    obtain ⟨hx, hrest⟩ := hv
    match j with
    | 0 => exact of_decide_eq_true hx
    | j + 1 =>
      exact ih x (by rw [Bool.and_eq_true] at hrest; exact hrest.2) j
        (Nat.lt_of_succ_lt_succ hj)

/-- Validity is a function of the block list alone. -/
theorem is_chain_valid_congr (H : HashFn) (c1 c2 : Blockchain)
    (h : c1.chain = c2.chain) : is_chain_valid H c1 = is_chain_valid H c2 := by
  unfold is_chain_valid
  rw [h]

/-- Reloading an exported record reproduces the block field-for-field:
the constructor-computed hash and zero nonce are overwritten by the
record's stored hash and nonce. -/
theorem record_to_block_to_dict (H : HashFn) (b : Block) :
    record_to_block H (Block.to_dict b) = b := by
  cases b
  rfl

/-- A successful direct append grows the chain by exactly one block and
preserves validity, nonemptiness and the difficulty setting. -/
theorem add_block_direct_spec (H : HashFn) (fuel : Nat) (c : Blockchain)
    (data : String) (ts : Nat) (c' : Blockchain)
    (hne : c.chain ≠ [])
    (hv : is_chain_valid H c = true)
    (h : add_block_direct H fuel c data ts = some c') :
    c'.chain.length = c.chain.length + 1 ∧ c'.chain ≠ [] ∧
    is_chain_valid H c' = true ∧ c'.difficulty = c.difficulty := by
  unfold add_block_direct get_latest_block at h
  cases hc : c.chain with
  | nil => exact absurd hc hne
  | cons g rest =>
    have hv' : chainValidFrom H g rest = true := by
      unfold is_chain_valid at hv
      rw [hc] at hv
      exact hv
    rw [hc] at h
    rw [getLast?_cons_getLastD] at h
    simp only [Option.bind_eq_bind, Option.some_bind] at h
    cases hmf : mineFuel H c.difficulty fuel
        (newBlock H (g :: rest).length data (rest.getLastD g).hash ts) with
    | none => rw [hmf] at h; exact absurd h (by simp)
    | some nb =>
      rw [hmf] at h
      simp only [Option.some_bind, Option.pure_def, Option.some.injEq] at h
      obtain ⟨f1, f2, f3, f4, f5, f6, f7, f8⟩ :=
        mineFuel_spec H c.difficulty fuel _ nb rfl hmf
      have hprev : nb.previous_hash = (rest.getLastD g).hash := f4
      subst h
      refine ⟨by simp, by simp, ?_, rfl⟩
      show chainValidFrom H g (rest ++ [nb]) = true
      rw [chainValidFrom_append, hv']
      simp [f6, hprev]

/-- Iterating direct appends: a successful run of N appends grows the
chain by N blocks and preserves validity. -/
theorem addBlocksDirect_spec (H : HashFn) (fuel : Nat) :
    ∀ (items : List (String × Nat)) (c c' : Blockchain),
      c.chain ≠ [] → is_chain_valid H c = true →
      addBlocksDirect H fuel c items = some c' →
      c'.chain.length = c.chain.length + items.length ∧ c'.chain ≠ [] ∧
      is_chain_valid H c' = true := by
  intro items
  induction items with
  | nil =>
    intro c c' hne hv h
    rw [addBlocksDirect] at h
    cases h
    exact ⟨rfl, hne, hv⟩
  | cons p rest ih =>
    obtain ⟨d, ts⟩ := p
    intro c c' hne hv h
    rw [addBlocksDirect] at h
    cases hab : add_block_direct H fuel c d ts with
    | none => rw [hab] at h; exact absurd h (by simp)
    | some c1 =>
      rw [hab] at h
      obtain ⟨l1, hne1, hv1, _⟩ := add_block_direct_spec H fuel c d ts c1 hne hv hab
      obtain ⟨l2, hne2, hv2⟩ := ih c1 c' hne1 hv1 h
      refine ⟨?_, hne2, hv2⟩
      rw [l2, l1]
      simp only [List.length_cons]
      omega

/-- A validation walk over a list with position j replaced certifies
the replacement block's stored hash against a fresh recomputation. -/
theorem valid_set_hash (H : HashFn) (g : Block) (rest : List Block) (j : Nat)
    (mod : Block) (hj : j < rest.length)
    (hv : chainValidFrom H g (rest.set j mod) = true) :
    mod.hash = calculate_hash H mod := by
  have hlen : j < (rest.set j mod).length := by simpa using hj
  have hok := chainValidFrom_hash_ok H (rest.set j mod) g hv j hlen
  have hget : (rest.set j mod).get ⟨j, hlen⟩ = mod := by
    rw [List.get_eq_getElem]
    exact List.getElem_set_self hlen
  rw [hget] at hok
  exact hok

/-- C1 (amended): overwriting the payload of any block at an index i
with 1 <= i < len(blocks), as the tamper operation does, with a payload
whose recomputed digest differs from the stored digest, makes
validation return false. (Index 0 is excluded: the counterexample shows
a genesis tamper goes undetected, since validation starts at block 1.) -/
theorem tamper_nongenesis_invalidates (H : HashFn) (c c' : Blockchain) (i : Nat)
    (orig : Block) (new_data : String)
    (h1 : 1 ≤ i)
    (horig : c.chain[i]? = some orig)
    (hne : calculate_hash H { orig with data := new_data } ≠ orig.hash)
    (ht : tamper_with_block c (i : Int) new_data = Except.ok c') :
    is_chain_valid H c' = false := by
  obtain ⟨h2, hoi⟩ := List.getElem?_eq_some.mp horig
  have hin : 0 ≤ (i : Int) ∧ (i : Int) < (c.chain.length : Int) :=
    ⟨Int.natCast_nonneg i, by exact_mod_cast h2⟩
  unfold tamper_with_block at ht
  rw [dif_pos hin] at ht
  simp only [Except.ok.injEq] at ht
  have hchain : c'.chain = c.chain.set i { orig with data := new_data } := by
    rw [← ht]
    simp only [Int.toNat_natCast]
    congr 1
    rw [List.get_eq_getElem]
    rw [hoi]
  obtain ⟨j, hji⟩ := Nat.exists_eq_add_of_le h1
  cases hcc : c.chain with
  | nil => rw [hcc] at h2; exact absurd h2 (by simp)
  | cons g rest =>
    rw [hcc] at hchain
    rw [hji] at hchain
    have hset : (g :: rest).set (1 + j) { orig with data := new_data }
        = g :: rest.set j { orig with data := new_data } := by
      rw [Nat.add_comm]
      rfl
    rw [hset] at hchain
    by_contra hvf
    have hvt : is_chain_valid H c' = true := by
      revert hvf
      cases is_chain_valid H c' <;> simp
    unfold is_chain_valid at hvt
    rw [hchain] at hvt
    have hjlen : j < rest.length := by
      rw [hcc] at h2
      simp only [List.length_cons] at h2
      omega
    have hmod := valid_set_hash H g rest j { orig with data := new_data } hjlen hvt
    exact hne (by rw [← hmod])

/-- Witness for C1: tampering block 1 of the concrete valid demoChain
with the different payload "X" makes validation return false. -/
theorem tamper_nongenesis_invalidates_witness :
    is_chain_valid H0 demoTampered = false :=
  tamper_nongenesis_invalidates H0 demoChain demoTampered 1 b1 "X"
    (by decide) (by decide) (by decide) (by rfl)

/-- C1 counterexample: the claim fails at block index 0. Tampering the
genesis block of the valid demoChain genuinely overwrites its payload,
yet validation still returns true, because the validation loop starts
at block 1 and block 1's previous_hash is compared to the genesis
block's stored (unchanged) hash, never to a recomputation. -/
theorem tamper_genesis_undetected :
    (tamper_with_block demoChain 0 "HACKED").toOption.map
        (fun c => (is_chain_valid H0 c, c.chain.map Block.data))
      = some (true, ["HACKED", "hello"]) := by decide

/-- C2 counterexample: a chain produced by the loader whose first block
has index 5 and previous_hash "1" — violating both genesis-specific
structural conditions — is still reported valid by validation, because
the validation loop starts at block 1 and never examines the genesis
block's index or previous_hash fields. -/
theorem genesis_checks_missing :
    (load_blockchain H0 1 0 [BlockRecord.mk 5 0 "not-genesis" "1" "h" 7]).map
        (fun c => (is_chain_valid H0 c, c.chain.map (fun b => (b.index, b.previous_hash))))
      = some (true, [(5, "1")]) := by decide

/-- C2 (amended): validation performs no genesis-specific structural
check; its verdict depends on the first block only through that block's
stored hash, so corrupting the genesis index or previous_hash (keeping
the stored hash) never changes the validation result — a chain
violating the sentinel or index-0 condition is not thereby reported
invalid. -/
theorem valid_ignores_genesis_fields (H : HashFn) (c c' : Blockchain) (g g' : Block)
    (rest : List Block) (hc : c.chain = g :: rest) (hc' : c'.chain = g' :: rest)
    (hh : g'.hash = g.hash) :
    is_chain_valid H c' = is_chain_valid H c := by
  unfold is_chain_valid
  rw [hc, hc']
  cases rest with
  | nil => rfl
  | cons x xs => simp [chainValidFrom, hh]

/-- Witness for the amended C2: corrupting demoChain's genesis index
and previous_hash while keeping its stored hash leaves the validation
verdict unchanged (both chains validate to true). -/
theorem valid_ignores_genesis_fields_witness :
    is_chain_valid H0 demoChainBadGenesis = is_chain_valid H0 demoChain ∧
      is_chain_valid H0 demoChain = true :=
  ⟨valid_ignores_genesis_fields H0 demoChain demoChainBadGenesis g0 g0bad [b1]
    rfl rfl rfl, by decide⟩

/-- C3: mining a freshly constructed block (nonce 0, hash consistent by
construction) at any difficulty, when it terminates within the fuel
bound, leaves the payload fields unchanged, stores a digest equal to a
fresh recomputation whose first difficulty-many characters are all '0',
and ends with the smallest nonce whose recomputed digest has that
all-zero prefix — every smaller nonce fails the predicate. -/
theorem mine_block_spec (H : HashFn) (difficulty fuel index timestamp : Nat)
    (data previous_hash : String) (b' : Block)
    (hm : mineFuel H difficulty fuel (newBlock H index data previous_hash timestamp)
      = some b') :
    b'.index = index ∧ b'.timestamp = timestamp ∧ b'.data = data ∧
    b'.previous_hash = previous_hash ∧
    b'.hash = calculate_hash H b' ∧
    b'.hash.take difficulty = zeroTarget difficulty ∧
    (H index timestamp data previous_hash b'.nonce).take difficulty
      = zeroTarget difficulty ∧
    ∀ m, m < b'.nonce →
      (H index timestamp data previous_hash m).take difficulty
        ≠ zeroTarget difficulty := by
  obtain ⟨e1, e2, e3, e4, e5, e6, e7, e8⟩ :=
    mineFuel_spec H difficulty fuel _ b' rfl hm
  refine ⟨e1, e2, e3, e4, e6, e7, ?_, ?_⟩
  · have hcalc : calculate_hash H b' = H index timestamp data previous_hash b'.nonce := by
      unfold calculate_hash
      rw [e1, e2, e3, e4]
      rfl
    rw [← hcalc, ← e6]
    exact e7
  · intro m hm'
    exact e8 m (Nat.zero_le m) hm'

/-- Witness for C3: mining the concrete fresh block mb at difficulty 1
over H0 succeeds immediately at nonce 0 with all stated properties. -/
theorem mine_block_spec_witness :
    mb.index = 3 ∧ mb.timestamp = 5 ∧ mb.data = "payload" ∧
    mb.previous_hash = "prevhash" ∧ mb.hash = calculate_hash H0 mb ∧
    mb.hash.take 1 = zeroTarget 1 ∧
    (H0 3 5 "payload" "prevhash" mb.nonce).take 1 = zeroTarget 1 ∧
    ∀ m, m < mb.nonce → (H0 3 5 "payload" "prevhash" m).take 1 ≠ zeroTarget 1 :=
  mine_block_spec H0 1 0 3 5 "payload" "prevhash" mb (by rfl)

/-- C4: creating a chain at difficulty 1 (reward amount 100), queueing
"A sends 10 coins to B" and flushing pending entries with reward
address "Miner" yields a chain of exactly 2 blocks with
balance("A") = -10, balance("B") = 10 and balance("Miner") = 100, for
any digest function, provided the two fuel-bounded mining runs finish. -/
theorem scenario_two_blocks_balances (H : HashFn) (fuel1 fuel2 ts0 ts1 : Nat)
    (c0 c2 : Blockchain)
    (h0 : Blockchain.init H fuel1 1 ts0 = some c0)
    (h2 : mine_pending_transactions H fuel2
            (add_transaction c0 "A sends 10 coins to B") "Miner" ts1 = some c2) :
    c2.chain.length = 2 ∧ get_balance c2 "A" = some (-10) ∧
    get_balance c2 "B" = some 10 ∧ get_balance c2 "Miner" = some 100 := by
  unfold Blockchain.init at h0
  cases hg : create_genesis_block H fuel1 1 ts0 with
  | none => rw [hg] at h0; exact absurd h0 (by simp)
  | some g =>
    rw [hg] at h0
    simp only [Option.map_some', Option.some.injEq] at h0
    subst h0
    have hgidx : g.index = 0 :=
      (mineFuel_spec H 1 fuel1 _ g rfl hg).1
    unfold mine_pending_transactions at h2
    simp only [add_transaction] at h2
    rw [if_neg (by simp)] at h2
    simp only [get_latest_block] at h2
    simp only [List.nil_append] at h2
    rw [getLast?_cons_getLastD] at h2
    simp only [Option.bind_eq_bind, Option.some_bind, List.getLastD] at h2
    cases hmf : mineFuel H 1 fuel2
        (newBlock H [g].length
          (" | ".intercalate
            (["A sends 10 coins to B"]
              ++ ["Mining Reward: " ++ toString 100 ++ " coins to " ++ "Miner"]))
          g.hash ts1) with
    | none => rw [hmf] at h2; exact absurd h2 (by simp)
    | some nb =>
      rw [hmf] at h2
      simp only [Option.some_bind, Option.pure_def, Option.some.injEq] at h2
      obtain ⟨f1, f2, f3, f4, f5, f6, f7, f8⟩ :=
        mineFuel_spec H _ fuel2 _ nb rfl hmf
      subst h2
      refine ⟨by simp, ?_, ?_, ?_⟩ <;>
      · unfold get_balance
        simp only [List.cons_append, List.nil_append, List.foldlM_cons,
          List.foldlM_nil, hgidx, f1, f3, newBlock, List.length_cons,
          List.length_nil, Option.pure_def, Option.some_bind]
        simp only [if_true, Nat.succ_ne_zero, if_false, zero_add]
        with_unfolding_all decide

set_option maxRecDepth 4000 in
/-- Witness for C4: the scenario realized over H0 with concrete fuels
and timestamps, ending in the concrete two-block chain c4end. -/
theorem scenario_two_blocks_balances_witness :
    c4end.chain.length = 2 ∧ get_balance c4end "A" = some (-10) ∧
    get_balance c4end "B" = some 10 ∧ get_balance c4end "Miner" = some 100 :=
  scenario_two_blocks_balances H0 0 0 0 1 c4start c4end (by rfl)
    (by with_unfolding_all decide)

/-- C5: a freshly constructed chain has exactly one block and validates
to true, and after any sequence of N direct appends (no tampering) the
chain has exactly N+1 blocks and still validates to true, whenever the
fuel-bounded mining runs all finish. -/
theorem construct_append_valid (H : HashFn) (fuel difficulty ts : Nat)
    (items : List (String × Nat)) (c0 c : Blockchain)
    (h0 : Blockchain.init H fuel difficulty ts = some c0)
    (h : addBlocksDirect H fuel c0 items = some c) :
    c0.chain.length = 1 ∧ is_chain_valid H c0 = true ∧
    c.chain.length = items.length + 1 ∧ is_chain_valid H c = true := by
  unfold Blockchain.init at h0
  cases hg : create_genesis_block H fuel difficulty ts with
  | none => rw [hg] at h0; exact absurd h0 (by simp)
  | some g =>
    rw [hg] at h0
    simp only [Option.map_some', Option.some.injEq] at h0
    subst h0
    obtain ⟨l, hne, hv⟩ := addBlocksDirect_spec H fuel items
      (Blockchain.mk [g] difficulty [] 100) c (by simp) (by rfl) h
    refine ⟨rfl, rfl, ?_, hv⟩
    rw [l]
    simp [Nat.add_comm]

/-- Witness for C5: over H0 at difficulty 1, construction yields the
one-block chain and one direct append yields the valid demoChain. -/
theorem construct_append_valid_witness :
    (Blockchain.mk [g0] 1 [] 100).chain.length = 1 ∧
      is_chain_valid H0 (Blockchain.mk [g0] 1 [] 100) = true ∧
      demoChain.chain.length = [("hello", 1)].length + 1 ∧
      is_chain_valid H0 demoChain = true :=
  construct_append_valid H0 0 1 0 [("hello", 1)] (Blockchain.mk [g0] 1 [] 100)
    demoChain (by rfl) (by rfl)

/-- C6 (code behaviour at the failing input): balance derivation is not
total. The transfer guard admits the entry "A sends 10 to B" (it
contains "sends" and "to" and has 5 whitespace tokens, passing the
len(parts) >= 5 check), but the recipient read parts[5] is out of
bounds for the 5-token list, so get_balance raises instead of ignoring
the entry — modelled as none. -/
theorem get_balance_index_error : get_balance crashChain "A" = none := by
  with_unfolding_all decide

/-- C7: tampering outside the index range [0, len(chain)) fails with
the out-of-range outcome and changes nothing; tampering in range
rewrites exactly the addressed block's data field — the stored hash and
every other field of every block are untouched, as is the rest of the
chain state. -/
theorem tamper_spec (c c' : Blockchain) (block_index : Int) (new_data : String) :
    (¬(0 ≤ block_index ∧ block_index < (c.chain.length : Int)) →
      tamper_with_block c block_index new_data = Except.error TamperError.outOfRange) ∧
    (tamper_with_block c block_index new_data = Except.ok c' →
      (0 ≤ block_index ∧ block_index < (c.chain.length : Int)) ∧
      c'.difficulty = c.difficulty ∧
      c'.pending_transactions = c.pending_transactions ∧
      c'.mining_reward = c.mining_reward ∧
      c'.chain.length = c.chain.length ∧
      ∀ hj : block_index.toNat < c.chain.length,
        c'.chain = c.chain.set block_index.toNat
          { (c.chain.get ⟨block_index.toNat, hj⟩) with data := new_data }) := by
  constructor
  · intro hout
    unfold tamper_with_block
    rw [dif_neg hout]
  · intro hok
    unfold tamper_with_block at hok
    by_cases hin : 0 ≤ block_index ∧ block_index < (c.chain.length : Int)
    · rw [dif_pos hin] at hok
      cases hok
      refine ⟨hin, rfl, rfl, rfl, List.length_set _ _ _, fun hj => rfl⟩
    · rw [dif_neg hin] at hok
      exact absurd hok (by simp)

/-- Witness for C7: on the concrete two-block demoChain, index 5 is
rejected as out of range, and tampering index 1 yields exactly the
chain with block 1's data replaced. -/
theorem tamper_spec_witness :
    tamper_with_block demoChain 5 "X" = Except.error TamperError.outOfRange ∧
      demoTampered.chain = demoChain.chain.set 1
        { (demoChain.chain.get ⟨1, by decide⟩) with data := "X" } :=
  ⟨(tamper_spec demoChain demoChain 5 "X").1 (by decide),
   (((tamper_spec demoChain demoTampered 1 "X").2 (by rfl)).2.2.2.2.2) (by decide)⟩

/-- C8: the explorer's chain construction rejects a difficulty outside
1..6 with the invalid-difficulty outcome, and inside the range hands
back the chain the Blockchain constructor builds (fuel-bounded genesis
mining supplied by hypothesis). -/
theorem create_blockchain_spec (H : HashFn) (fuel : Nat) (difficulty : Int)
    (timestamp : Nat) :
    ((difficulty < 1 ∨ 6 < difficulty) →
      create_blockchain H fuel difficulty timestamp
        = Except.error CreateError.invalidDifficulty) ∧
    (1 ≤ difficulty → difficulty ≤ 6 →
      ∀ c, Blockchain.init H fuel difficulty.toNat timestamp = some c →
        create_blockchain H fuel difficulty timestamp = Except.ok (some c)) := by
  constructor
  · intro h
    unfold create_blockchain
    rw [if_pos h]
  · intro h1 h6 c hc
    unfold create_blockchain
    rw [if_neg (by omega), hc]

/-- Witness for C8: difficulty 7 is rejected; difficulty 1 yields the
concrete one-block chain built from the H0 genesis. -/
theorem create_blockchain_spec_witness :
    create_blockchain H0 1 7 0 = Except.error CreateError.invalidDifficulty ∧
      create_blockchain H0 1 1 0 = Except.ok (some (Blockchain.mk [g0] 1 [] 100)) :=
  ⟨(create_blockchain_spec H0 1 7 0).1 (by omega),
   (create_blockchain_spec H0 1 1 0).2 (by omega) (by omega) _ (by decide)⟩

/-- C9: deserializing a serialized chain reproduces the block sequence
field-for-field — index, timestamp, data, previous_hash, hash, nonce —
so a tampered or otherwise invalid chain round-trips to one that
validates identically. The hypothesis only requires the loader's
throwaway fuel-bounded genesis mining of its fresh
Blockchain(difficulty=2) to have finished. -/
theorem roundtrip_preserves_chain (H : HashFn) (fuel timestamp : Nat)
    (c c' : Blockchain)
    (h : load_blockchain H fuel timestamp (export_chain c) = some c') :
    c'.chain = c.chain ∧ is_chain_valid H c' = is_chain_valid H c := by
  unfold load_blockchain at h
  cases hi : Blockchain.init H fuel 2 timestamp with
  | none => rw [hi] at h; exact absurd h (by simp)
  | some bc =>
    rw [hi] at h
    simp only [Option.map_some', Option.some.injEq] at h
    have hc : c'.chain = c.chain := by
      rw [← h]
      show (export_chain c).map (record_to_block H) = c.chain
      unfold export_chain
      rw [List.map_map]
      have hid : (record_to_block H ∘ Block.to_dict) = id := by
        funext b
        exact record_to_block_to_dict H b
      rw [hid, List.map_id]
    exact ⟨hc, is_chain_valid_congr H c' c hc⟩

/-- Witness for C9: the concrete valid two-block chain demoChain
round-trips unchanged through export and load. -/
theorem roundtrip_preserves_chain_witness :
    (Blockchain.mk demoChain.chain 2 [] 100).chain = demoChain.chain ∧
      is_chain_valid H0 (Blockchain.mk demoChain.chain 2 [] 100)
        = is_chain_valid H0 demoChain :=
  roundtrip_preserves_chain H0 1 0 demoChain (Blockchain.mk demoChain.chain 2 [] 100)
    (by decide)

/-- C10: in balance derivation, an entry that reaches the reward branch
("Mining Reward:" is a substring, the transfer guard failed) credits
its parsed amount to every queried address occurring as a substring of
the entry's text — the recipient name is never consulted. In
particular, the address "Mining" is credited by every reward entry the
pending-entry flush produces. -/
theorem reward_credits_every_substring_address (address t : String) (balance q : ℚ)
    (amountStr : String)
    (hnot : ¬(containsSub t "sends" = true ∧ containsSub t "to" = true))
    (hrw : containsSub t "Mining Reward:" = true)
    (haddr : containsSub t address = true)
    (ha : (pySplit t)[2]? = some amountStr)
    (hq : parseFloat amountStr = some q) :
    applyTransaction address balance t = some (balance + q) := by
  unfold applyTransaction
  have hb : (containsSub t "sends" && containsSub t "to") = false := by
    cases h1 : containsSub t "sends" with
    | false => simp
    | true =>
      cases h2 : containsSub t "to" with
      | false => simp
      | true => exact absurd ⟨h1, h2⟩ hnot
  rw [hb, hrw, haddr]
  simp only [Bool.false_eq_true, if_false, Bool.and_self, if_true]
  have hlen : 3 ≤ (pySplit t).length := by
    obtain ⟨hlt, _⟩ := List.getElem?_eq_some.mp ha
    omega
  rw [if_pos hlen]
  simp [ha, hq]

/-- Witness for C10: the canonical reward entry credits 100 to the
address "Mining", which is a substring of the entry but not its named
recipient "Miner". -/
theorem reward_credits_witness :
    applyTransaction "Mining" 0 "Mining Reward: 100 coins to Miner"
      = some (0 + 100) :=
  reward_credits_every_substring_address "Mining" "Mining Reward: 100 coins to Miner"
    0 100 "100" (by with_unfolding_all decide) (by with_unfolding_all decide)
    (by with_unfolding_all decide) (by with_unfolding_all decide)
    (by with_unfolding_all decide)
